import Mathlib

set_option maxHeartbeats 1000000
set_option maxRecDepth 4000

namespace Eetl

/-!
Shallow embedding of the eetl repository normalization-merge-KPI pipeline
(src/ETL.py, src/final_2.py, src/mapping.py) and proofs about the claims
of the specification.  Tables are modelled as ordered column-name lists
with positionally aligned rows of cells; pandas missing values (NaN/NA)
are the cell constructor na.
-/

/-- Cell of a dataframe: a numeric value (including numeric text, which
pandas to_numeric parses), a non-numeric text value, or a missing value
(pandas NaN / NA / None collapsed into na). -/
inductive Cell where
  | na : Cell
  | num : ℚ → Cell
  | str : String → Cell
deriving DecidableEq, Repr

/-- Numeric coercion used by calculate_kpis in ETL.py (lines 239-241 and
inside the KPI blocks): pd.to_numeric(col, errors="coerce").fillna(0).
A numeric cell keeps its value; non-numeric text and missing cells
become 0. -/
def toNum0 : Cell → ℚ
  | Cell.num q => q
  | _ => 0

/-- Rounding of a rational to the nearest integer with ties going to the
even integer, which is the rounding used by numpy and hence by the pandas
Series.round calls in calculate_kpis. -/
def roundHalfEven (q : ℚ) : ℤ :=
  let f := ⌊q⌋
  let r := q - f
  if r < 1/2 then f
  else if 1/2 < r then f + 1
  else if f % 2 = 0 then f else f + 1

/-- Rounding to d decimal places, ties to even (pandas Series.round(d)). -/
def roundTo (d : Nat) (q : ℚ) : ℚ :=
  (roundHalfEven (q * (10 : ℚ) ^ d) : ℚ) / (10 : ℚ) ^ d

/-- GCR computation of calculate_kpis (ETL.py line 252) for one row,
before the final fillna: billed.replace(0, pd.NA) turns a zero
denominator into a missing value, and the division and multiplication by
100 propagate the missing value.  The inputs are the already coerced
paid and billed cells of the row. -/
def gcrRaw (paid billed : Cell) : Option ℚ :=
  (if toNum0 billed = 0 then none else some (toNum0 billed)).map
    (fun b => toNum0 paid / b * 100)

/-- GCR value persisted for one row (ETL.py line 252): the raw value with
missing replaced by 0 via fillna(0), then rounded to 2 decimals. -/
def gcrFinal (paid billed : Cell) : ℚ :=
  roundTo 2 ((gcrRaw paid billed).getD 0)

/-- Elementwise GCR over the paid and billed columns of the merged table. -/
def gcrColumn (paid billed : List Cell) : List ℚ :=
  List.zipWith gcrFinal paid billed

/-- Sum of the coerced Billed Amount column, as computed by
df["Billed Amount"].sum() in ETL.py line 263 after the coercion at the
top of calculate_kpis. -/
def arBilledSum (billed : List Cell) : ℚ :=
  (billed.map toNum0).sum

/-- ETL.py line 264: avg_daily_charges = billed_sum / 30 if billed_sum
else None.  The Python truthiness test makes a zero sum produce None. -/
def avgDailyCharges (billed : List Cell) : Option ℚ :=
  let s := arBilledSum billed
  if s = 0 then none else some (s / 30)

/-- ETL.py line 265: df["AR Days"] = (df["AR Balance"] /
avg_daily_charges).round(1) if avg_daily_charges else None.  The whole
column is None exactly when avg_daily_charges is None or zero; otherwise
each AR Balance cell is divided by it and rounded to 1 decimal. -/
def arDaysColumn (ar billed : List Cell) : Option (List ℚ) :=
  match avgDailyCharges billed with
  | none => none
  | some avg =>
    if avg = 0 then none
    else some (ar.map (fun a => roundTo 1 (toNum0 a / avg)))

/-- Number of occurrences of a column name in a list of names. -/
def occCount (c : String) : List String → Nat
  | [] => 0
  | d :: rest => (if d = c then 1 else 0) + occCount c rest

/-- Loop body of make_unique_columns (ETL.py lines 225-235).  The Python
dict seen is modelled as a function from names to the counter stored for
them (none when the name has not been seen).  A first occurrence is kept
verbatim and records counter 0; a repeat increments the counter n to n+1
and emits the name suffixed with an underscore and the new counter. -/
def makeUniqueAux (seen : String → Option Nat) : List String → List String
  | [] => []
  | c :: rest =>
    match seen c with
    | none => c :: makeUniqueAux (fun d => if d = c then some 0 else seen d) rest
    | some n =>
      (c ++ "_" ++ Nat.repr (n + 1)) ::
        makeUniqueAux (fun d => if d = c then some (n + 1) else seen d) rest

/-- ETL.py make_unique_columns, started with an empty seen dict. -/
def make_unique_columns (cols : List String) : List String :=
  makeUniqueAux (fun _ => none) cols

/-- Lower-casing of a string, character by character, as Python
str.lower does on ASCII headers. -/
def strLower (s : String) : String :=
  ⟨s.toList.map Char.toLower⟩

/-- Python str.strip: remove leading and trailing whitespace. -/
def strTrim (s : String) : String :=
  ⟨((s.toList.dropWhile Char.isWhitespace).reverse.dropWhile Char.isWhitespace).reverse⟩

/-- Per-name normalization applied just before make_unique_columns
(ETL.py line 308): c.lower().strip(). -/
def lowerTrim (c : String) : String :=
  strTrim (strLower c)

/-- Final renaming step of process_single_file (ETL.py lines 308-309):
lower-case and trim every column name, then make_unique_columns. -/
def finalizeColumns (cols : List String) : List String :=
  make_unique_columns (cols.map lowerTrim)

/-- Specification-style description of the renaming: walking the list
with the already processed names at hand, a name with no earlier
occurrence is kept and the k-th repeat (k earlier occurrences) becomes
the name suffixed with an underscore and k. -/
def countedRename (pre : List String) : List String → List String
  | [] => []
  | c :: rest =>
    (if occCount c pre = 0 then c else c ++ "_" ++ Nat.repr (occCount c pre)) ::
      countedRename (pre ++ [c]) rest

/-- Outcome of the archive step for one source file: number of move
attempts actually made, seconds spent in backoff sleeps between failed
attempts, whether the file ended up archived, and whether the file is
reported as processed (non-fatal outcome) by the surrounding code. -/
structure ArchiveOutcome where
  attempts : Nat
  sleepSeconds : Nat
  archived : Bool
  fileReportedOk : Bool
deriving DecidableEq, Repr

/-- Archive step of process_single_file in ETL.py (lines 319-324): a
single shutil.move call with no retry loop; any exception from it is
caught by the per-file handler and turns the whole file result into
success=False even though the CSV and database writes already happened.
moveFails n tells whether the n-th move attempt (0-based) raises. -/
def etlArchiveMove (moveFails : Nat → Bool) : ArchiveOutcome :=
  if moveFails 0 then
    { attempts := 1, sleepSeconds := 0, archived := false, fileReportedOk := false }
  else
    { attempts := 1, sleepSeconds := 0, archived := true, fileReportedOk := true }

/-- Archive retry loop of final_2.py (lines 112-122): for attempt in
range(3), try the move and break on success; on PermissionError log a
warning and sleep one second; the for-else arm logs an error after the
third failure.  files_processed is incremented afterwards in both cases,
so the file is reported as processed either way. -/
def final2ArchiveGo (moveFails : Nat → Bool) (tried sleeps : Nat) :
    List Nat → ArchiveOutcome
  | [] =>
    { attempts := tried, sleepSeconds := sleeps, archived := false, fileReportedOk := true }
  | a :: rest =>
    if moveFails a then final2ArchiveGo moveFails (tried + 1) (sleeps + 1) rest
    else { attempts := tried + 1, sleepSeconds := sleeps, archived := true,
           fileReportedOk := true }

/-- Run-scoped database table name used by process_single_file (ETL.py
line 317): claims_with_kpis followed by the run identifier; the name
depends only on the run identifier shared by the whole batch. -/
def runTableName (runId : String) : String :=
  "claims_with_kpis_" ++ runId

/-- Database-relevant outcome of one process_single_file call: wrote is
the table content written by to_sql when the call reached the write
(ETL.py lines 316-317), none when it failed earlier; success is the flag
of the returned result.  A call can write and still report failure when
a later step (the archive move, line 320) raises. -/
structure FileOutcome (α : Type) where
  wrote : Option α
  success : Bool
deriving DecidableEq, Repr

/-- Effect of one file of the batch on the database: to_sql with
if_exists replace overwrites the full content stored under the run
table name; a file that never reached the write leaves it unchanged. -/
def applyFile {α : Type} (runId : String) (db : String → Option α)
    (f : FileOutcome α) : String → Option α :=
  match f.wrote with
  | none => db
  | some rows => fun n => if n = runTableName runId then some rows else db n

/-- Database state after the process_files batch loop (ETL.py lines
361-369): the files of the intake directory are processed in order, all
with the same run identifier. -/
def processFilesDB {α : Type} (runId : String) (files : List (FileOutcome α))
    (db : String → Option α) : String → Option α :=
  files.foldl (applyFile runId) db

/-- Rows written by the last file of the batch whose result reported
success. -/
def lastSuccessWrote {α : Type} (files : List (FileOutcome α)) : Option α :=
  match (files.filter (fun f => f.success)).getLast? with
  | none => none
  | some f => f.wrote

/-- Substring test, as the Python in operator on strings: the needle
occurs contiguously inside the haystack. -/
def strContains (hay needle : String) : Bool :=
  (List.range (hay.toList.length + 1)).any
    (fun i => needle.toList.isPrefixOf (hay.toList.drop i))

/-- find_sheet of final_2.py (lines 26-31): return the first sheet name
containing the keyword, case-insensitively. -/
def find_sheet : List String → String → Option String
  | [], _ => none
  | s :: rest, kw =>
    if strContains (strLower s) (strLower kw) then some s else find_sheet rest kw

/-- Iteration order of the sheet_mappings dict of ETL.py (lines
157-200): Charges, Payment, Adjustment, Pending AR. -/
def roleKeys : List String :=
  ["Charges", "Payment", "Adjustment", "Pending AR"]

/-- Inner loop of the sheet scan of process_single_file (ETL.py lines
287-295): the first role key whose lowered name occurs in the lowered
sheet name, if any (the break leaves the inner loop after the first
hit). -/
def assignRole (sheet : String) : Option String :=
  roleKeys.find? (fun k => strContains (strLower sheet) (strLower k))

/-- One step of the sheet scan: a sheet matched to a role overwrites the
processed dict entry for that role (processed[key] = df). -/
def etlClassifyStep (acc : String → Option String) (sheet : String) :
    String → Option String :=
  match assignRole sheet with
  | some k => fun r => if r = k then some sheet else acc r
  | none => acc

/-- Sheet scan of process_single_file over the workbook sheet names:
for each role, the sheet whose parsed table ends up stored for it. -/
def etlClassify (names : List String) : String → Option String :=
  names.foldl etlClassifyStep (fun _ => none)

/-- Specification-style description: the last element of the list
satisfying the predicate. -/
def lastMatch (p : String → Bool) : List String → Option String
  | [] => none
  | s :: rest =>
    match lastMatch p rest with
    | some t => some t
    | none => if p s then some s else none

/-- Archive retry of final_2.py over the attempt indices range(3). -/
def final2Archive (moveFails : Nat → Bool) : ArchiveOutcome :=
  final2ArchiveGo moveFails 0 0 [0, 1, 2]

/-- Loop of rapidfuzz process.extractOne with the scoring function as an
explicit parameter (the source passes fuzz.token_sort_ratio, library
code outside this repository): walk the choices keeping the first one
attaining the maximal score, replacing the running best only on a
strictly greater score. -/
def extractOneAux (scorer : String → String → ℚ) (query : String)
    (best : String × ℚ) : List String → String × ℚ
  | [] => best
  | c :: rest =>
    extractOneAux scorer query
      (if best.2 < scorer query c then (c, scorer query c) else best) rest

/-- rapidfuzz process.extractOne: none on an empty choice list (the
Python call would fail to unpack), otherwise the first best choice with
its score. -/
def extractOne (scorer : String → String → ℚ) (query : String) :
    List String → Option (String × ℚ)
  | [] => none
  | c :: rest => some (extractOneAux scorer query (c, scorer query c) rest)

/-- fuzzy_match_header of ETL.py (lines 203-207): no exact-match path;
the best fuzzy match is accepted when its score reaches the cutoff,
otherwise None. -/
def fuzzy_match_header (scorer : String → String → ℚ) (colName : String)
    (mappingKeys : List String) (scoreCutoff : ℚ) : Option String :=
  match extractOne scorer colName mappingKeys with
  | none => none
  | some (m, score) => if scoreCutoff ≤ score then some m else none

/-- Per-column renaming of normalize_headers in ETL.py (lines 210-215):
match_key is fuzzy_match_header(col, mapping.keys()) or col, where the
Python or replaces both None and an empty string by col; the new name is
mapping.get(match_key, col).  ETL.py always calls fuzzy_match_header
with its default cutoff 85.  The mapping dict is an ordered association
list. -/
def normalizeHeaderName (scorer : String → String → ℚ)
    (mapping : List (String × String)) (colName : String) : String :=
  let matchKey :=
    match fuzzy_match_header scorer colName (mapping.map Prod.fst) 85 with
    | some m => if m = "" then colName else m
    | none => colName
  match List.lookup matchKey mapping with
  | some canon => canon
  | none => colName

/-- normalize_headers of ETL.py applied to all columns of a sheet. -/
def normalize_headers (scorer : String → String → ℚ)
    (mapping : List (String × String)) (cols : List String) : List String :=
  cols.map (normalizeHeaderName scorer mapping)

/-- fuzzy_match_header of mapping.py (lines 51-57), which differs from
the ETL.py version by an exact-membership short-circuit before any
fuzzy scoring: a column name that is itself a mapping key is returned
directly, without consulting the scorer or the cutoff. -/
def fuzzyMatchHeaderExact (scorer : String → String → ℚ) (colName : String)
    (mappingKeys : List String) (scoreCutoff : ℚ) : Option String :=
  if colName ∈ mappingKeys then some colName
  else
    match extractOne scorer colName mappingKeys with
    | none => none
    | some (m, score) => if scoreCutoff ≤ score then some m else none

/-- Per-column renaming of normalize_sheet_headers in mapping.py (lines
60-70): if matched_key and matched_key in mapping, the new name is
mapping[matched_key], else the original column name (the truthiness
test makes an empty matched key fall back to the original).  The cutoff
is kept as a parameter (the source passes its default 85) so that
independence from it can be stated. -/
def normalizeSheetHeaderName (scorer : String → String → ℚ)
    (mapping : List (String × String)) (scoreCutoff : ℚ) (colName : String) : String :=
  match fuzzyMatchHeaderExact scorer colName (mapping.map Prod.fst) scoreCutoff with
  | none => colName
  | some mk =>
    if mk = "" then colName
    else
      match List.lookup mk mapping with
      | some canon => canon
      | none => colName

/-- Dataframe: ordered column names with rows of cells positionally
aligned with the columns. -/
structure DF where
  cols : List String
  rows : List (List Cell)
deriving DecidableEq, Repr

/-- Well-formedness of a dataframe: every row has exactly one cell per
column (always true of pandas frames). -/
def DF.WF (df : DF) : Prop :=
  ∀ row ∈ df.rows, row.length = df.cols.length

instance (df : DF) : Decidable df.WF :=
  inferInstanceAs (Decidable (∀ row ∈ df.rows, row.length = df.cols.length))

/-- Index of the first occurrence of a column name in a column list. -/
def colIdx (c : String) : List String → Nat
  | [] => 0
  | d :: rest => if d = c then 0 else colIdx c rest + 1

/-- Value of a named column in a row: the cell at the index of the first
occurrence of the name, none when the name is absent or the row is too
short. -/
def rowGet (cols : List String) (row : List Cell) (c : String) : Option Cell :=
  row[colIdx c cols]?

/-- Column of key values of a table. -/
def keyColumn (df : DF) (k : String) : List (Option Cell) :=
  df.rows.map (fun row => rowGet df.cols row k)

/-- Keep predicate of safe_merge (ETL.py lines 219-221): a right-table
column is dropped exactly when it already exists on the left and is not
the join key. -/
def keepCol (l : DF) (k c : String) : Bool :=
  if c ∈ l.cols ∧ c ≠ k then false else true

/-- Cells of a row restricted to the kept columns, walking the column
list and the row together. -/
def dropRow (keep : String → Bool) : List String → List Cell → List Cell
  | [], _ => []
  | c :: cs, row =>
    if keep c then row.headD Cell.na :: dropRow keep cs row.tail
    else dropRow keep cs row.tail

/-- right_df.drop(columns=dup_cols) of safe_merge: remove the colliding
columns from the right table. -/
def dropCols (l : DF) (r : DF) (k : String) : DF :=
  { cols := r.cols.filter (keepCol l k),
    rows := r.rows.map (fun row => dropRow (keepCol l k) r.cols row) }

/-- Right-table rows whose key value equals the given one.  pandas
merge matches missing key values with missing key values, so plain cell
equality is the right notion. -/
def matchedRows (r : DF) (k : String) (kv : Option Cell) : List (List Cell) :=
  r.rows.filter (fun rr => decide (rowGet r.cols rr k = kv))

/-- Output rows contributed by one left row in a left-outer merge: one
row per matching right row with the right key cell removed, or a single
row padded with missing cells when nothing matches. -/
def mergeRowFor (r : DF) (k : String) (lcols : List String) (lr : List Cell) :
    List (List Cell) :=
  let ms := matchedRows r k (rowGet lcols lr k)
  let ki := colIdx k r.cols
  if ms.isEmpty then [lr ++ List.replicate (r.cols.eraseIdx ki).length Cell.na]
  else ms.map (fun rr => lr ++ rr.eraseIdx ki)

/-- All rows of the left-outer merge, in left-table order. -/
def mergeRows (r : DF) (k : String) (lcols : List String) :
    List (List Cell) → List (List Cell)
  | [] => []
  | lr :: rest => mergeRowFor r k lcols lr ++ mergeRows r k lcols rest

/-- pandas left merge on the key column as called by safe_merge: output
columns are the left columns followed by the right columns minus the
key. -/
def dfMerge (l r : DF) (k : String) : DF :=
  { cols := l.cols ++ r.cols.eraseIdx (colIdx k r.cols),
    rows := mergeRows r k l.cols l.rows }

/-- safe_merge of ETL.py (lines 218-222): drop the right columns that
collide with left columns (other than the key), then left merge on the
key. -/
def safe_merge (l r : DF) (k : String) : DF :=
  dfMerge l (dropCols l r k) k

end Eetl

namespace Eetl

/-- Helper: rounding preserves zero. -/
theorem roundTo_zero (d : Nat) : roundTo d 0 = 0 := by
  simp only [roundTo, roundHalfEven]
  norm_num

/-- C7: for every merged row, a zero or missing Billed Amount makes the
Gross Collection Ratio equal 0 regardless of the Paid Amount; the
computation is total (value in ℚ, never an error, null or NaN). -/
theorem gcr_zero_or_missing_billed_eq_zero (paid billed : Cell)
    (h : billed = Cell.na ∨ billed = Cell.num 0) :
    gcrFinal paid billed = 0 := by
  rcases h with h | h <;> subst h <;>
    simp [gcrFinal, gcrRaw, toNum0, roundTo_zero]

/-- Witness for the C7 theorem at a concrete row with Paid Amount 57 and
Billed Amount 0. -/
theorem gcr_zero_or_missing_billed_eq_zero_witness :
    (Cell.num 0 = Cell.na ∨ Cell.num 0 = Cell.num 0) ∧
      gcrFinal (Cell.num 57) (Cell.num 0) = 0 :=
  ⟨Or.inr rfl, gcr_zero_or_missing_billed_eq_zero (Cell.num 57) (Cell.num 0) (Or.inr rfl)⟩

/-- C10 counterexample: with one row carrying AR Balance 1 and Billed
Amount 7 the code stores round-to-1-decimal of 30/7, namely 4.3, which
differs from the exact quotient 30/7 asserted by the claim. -/
theorem arDays_counterexample :
    arDaysColumn [Cell.num 1] [Cell.num 7] = some [43/10] ∧
      (43/10 : ℚ) ≠ (1 : ℚ) / ((7 : ℚ) / 30) := by
  constructor
  · have hf : Int.fract ((300 : ℚ) / 7) = 6 / 7 := by
      rw [Int.fract]
      norm_num
    norm_num [arDaysColumn, avgDailyCharges, arBilledSum, toNum0, roundTo, roundHalfEven, hf]
  · norm_num

/-- C10 amended: the AR Days column is null exactly when the sum of the
coerced Billed Amount column is zero, and otherwise each entry equals
30 times AR Balance divided by that sum, rounded to 1 decimal. -/
theorem arDays_amended (ar billed : List Cell) :
    (arDaysColumn ar billed = none ↔ arBilledSum billed = 0) ∧
      (arBilledSum billed ≠ 0 →
        arDaysColumn ar billed =
          some (ar.map (fun a => roundTo 1 (30 * toNum0 a / arBilledSum billed)))) := by
  constructor
  · constructor
    · intro h
      by_contra hs
      have h30 : ((arBilledSum billed) / 30 : ℚ) ≠ 0 :=
        div_ne_zero hs (by norm_num)
      simp [arDaysColumn, avgDailyCharges, hs, h30] at h
    · intro hs
      simp [arDaysColumn, avgDailyCharges, hs]
  · intro hs
    have h30 : ((arBilledSum billed) / 30 : ℚ) ≠ 0 :=
      div_ne_zero hs (by norm_num)
    have harg : ∀ a : Cell, toNum0 a / (arBilledSum billed / 30) =
        30 * toNum0 a / arBilledSum billed := by
      intro a
      field_simp
      ring
    simp [arDaysColumn, avgDailyCharges, hs, h30, harg]

/-- Witness for the C10 amended theorem at one concrete row. -/
theorem arDays_amended_witness :
    (arDaysColumn [Cell.num 1] [Cell.num 7] = none ↔ arBilledSum [Cell.num 7] = 0) ∧
      (arBilledSum [Cell.num 7] ≠ 0 →
        arDaysColumn [Cell.num 1] [Cell.num 7] =
          some ([Cell.num 1].map (fun a => roundTo 1 (30 * toNum0 a / arBilledSum [Cell.num 7])))) :=
  arDays_amended [Cell.num 1] [Cell.num 7]

/-- Helper: occCount distributes over append. -/
theorem occCount_append (c : String) (xs ys : List String) :
    occCount c (xs ++ ys) = occCount c xs + occCount c ys := by
  induction xs with
  | nil => simp [occCount]
  | cons d rest ih => simp [occCount, ih]; ring

/-- Helper: the seen-dict loop of make_unique_columns agrees with the
prefix-counting description, provided the dict holds exactly the number
of occurrences already processed (minus one) for each seen name. -/
theorem makeUniqueAux_eq_countedRename (cols : List String) :
    ∀ (pre : List String) (seen : String → Option Nat),
      (∀ c, seen c = if occCount c pre = 0 then none else some (occCount c pre - 1)) →
      makeUniqueAux seen cols = countedRename pre cols := by
  induction cols with
  | nil => intro pre seen _; simp [makeUniqueAux, countedRename]
  | cons c rest ih =>
    intro pre seen hseen
    have hinv : ∀ n : Nat, occCount c (pre ++ [c]) = occCount c pre + 1 := by
      intro _; simp [occCount_append, occCount]
    cases hc : seen c with
    | none =>
      have hocc : occCount c pre = 0 := by
        by_contra h
        rw [hseen c] at hc
        simp [h] at hc
      have hrec : makeUniqueAux (fun d => if d = c then some 0 else seen d) rest =
          countedRename (pre ++ [c]) rest := by
        apply ih
        intro d
        by_cases hd : d = c
        · subst hd
          simp [occCount_append, occCount, hocc]
        · have hocc2 : occCount d (pre ++ [c]) = occCount d pre := by
            simp only [occCount_append, occCount]
            have : (if c = d then 1 else 0) = 0 :=
              if_neg (fun h => hd h.symm)
            omega
          simp [hd, hocc2, hseen d]
      simp [makeUniqueAux, hc, countedRename, hocc, hrec]
    | some n =>
      have hocc : occCount c pre ≠ 0 := by
        intro h
        rw [hseen c] at hc
        simp [h] at hc
      have hn : n = occCount c pre - 1 := by
        rw [hseen c] at hc
        simp [hocc] at hc
        exact hc.symm
      have hn1 : n + 1 = occCount c pre := by
        omega
      have hrec : makeUniqueAux (fun d => if d = c then some (n + 1) else seen d) rest =
          countedRename (pre ++ [c]) rest := by
        apply ih
        intro d
        by_cases hd : d = c
        · subst hd
          have h1 : occCount d (pre ++ [d]) = occCount d pre + 1 := by
            simp [occCount_append, occCount]
          simp only [if_pos rfl, h1]
          have h2 : occCount d pre + 1 ≠ 0 := by omega
          simp [h2]
          omega
        · have hocc2 : occCount d (pre ++ [c]) = occCount d pre := by
            simp only [occCount_append, occCount]
            have : (if c = d then 1 else 0) = 0 :=
              if_neg (fun h => hd h.symm)
            omega
          simp [hd, hocc2, hseen d]
      simp only [makeUniqueAux, hc, countedRename]
      rw [if_neg hocc, ← hn1, hrec]

/-- C9 counterexample: the final renaming step does not always produce
pairwise distinct names: a table whose (already lowered and trimmed)
columns are a, a_1, a is renamed to a, a_1, a_1, which has a repeat. -/
theorem finalizeColumns_counterexample :
    finalizeColumns ["a", "a_1", "a"] = ["a", "a_1", "a_1"] ∧
      ¬ (finalizeColumns ["a", "a_1", "a"]).Nodup := by
  constructor
  · decide
  · decide

/-- C9 amended: the final renaming step lower-cases and trims every
column name and replaces the k-th repeated occurrence of a name (k
earlier occurrences) by the name suffixed with an underscore and k, in
first-seen order; distinctness of the output is not guaranteed when an
input name collides with a suffixed form. -/
theorem finalizeColumns_amended (cols : List String) :
    finalizeColumns cols = countedRename [] (cols.map lowerTrim) := by
  apply makeUniqueAux_eq_countedRename
  intro c
  simp [occCount]

/-- C2 counterexample: in ETL.py process_single_file, a source file whose
archive move fails is not retried (a single attempt is made) and the
outcome is reported as a per-file failure, contradicting the claimed
three attempts with a non-fatal outcome. -/
theorem archive_counterexample :
    (etlArchiveMove (fun _ => true)).attempts = 1 ∧
      (etlArchiveMove (fun _ => true)).fileReportedOk = false ∧
      (1 : Nat) ≠ 3 := by
  decide

/-- C2 amended: the retry loop of final_2.py makes at most 3 move
attempts, sleeps one second after each failed attempt, reports the file
as processed even when the attempts are exhausted, and exhausting them
leaves the file unarchived; ETL.py process_single_file instead makes a
single attempt whose failure is reported as a per-file failure. -/
theorem archive_retry_amended (moveFails : Nat → Bool) :
    (final2Archive moveFails).attempts ≤ 3 ∧
      (final2Archive moveFails).fileReportedOk = true ∧
      (moveFails 0 = true → moveFails 1 = true → moveFails 2 = true →
        final2Archive moveFails =
          { attempts := 3, sleepSeconds := 3, archived := false, fileReportedOk := true }) ∧
      (etlArchiveMove moveFails).attempts = 1 ∧
      (etlArchiveMove moveFails).fileReportedOk = !moveFails 0 := by
  cases h0 : moveFails 0 <;> cases h1 : moveFails 1 <;> cases h2 : moveFails 2 <;>
    simp [final2Archive, final2ArchiveGo, etlArchiveMove, h0, h1, h2]

/-- Witness for the C2 amended theorem: with every attempt failing, the
loop exhausts 3 attempts with 3 seconds of backoff and reports the file
as processed without archiving it. -/
theorem archive_retry_amended_witness :
    final2Archive (fun _ => true) =
      { attempts := 3, sleepSeconds := 3, archived := false, fileReportedOk := true } :=
  (archive_retry_amended (fun _ => true)).2.2.1 rfl rfl rfl

/-- Helper: getLast? of a cons in terms of getLast? of the tail. -/
theorem getLast?_cons_eq {β : Type} (w : β) (l : List β) :
    (w :: l).getLast? =
      match l.getLast? with
      | some r => some r
      | none => some w := by
  induction l generalizing w with
  | nil => simp
  | cons b bs ih =>
    rw [List.getLast?_cons_cons, ih b]
    cases bs.getLast? <;> simp

/-- Helper: getLast? is none exactly on the empty list. -/
theorem getLast?_none_iff {β : Type} (l : List β) : l.getLast? = none ↔ l = [] := by
  cases l with
  | nil => simp
  | cons b bs =>
    rw [getLast?_cons_eq]
    cases bs.getLast? <;> simp

/-- Helper: the run table holds the rows of the last file that reached
the database write, or keeps its prior content when no file wrote. -/
theorem processFiles_foldl_table {α : Type} (runId : String)
    (files : List (FileOutcome α)) :
    ∀ db : String → Option α,
      List.foldl (applyFile runId) db files (runTableName runId) =
        match (files.filterMap (fun f => f.wrote)).getLast? with
        | some r => some r
        | none => db (runTableName runId) := by
  induction files with
  | nil => intro db; simp
  | cons f fs ih =>
    intro db
    rw [List.foldl_cons, ih]
    cases hfw : f.wrote with
    | none => simp [List.filterMap_cons, hfw, applyFile]
    | some w =>
      simp only [List.filterMap_cons, hfw]
      rw [getLast?_cons_eq]
      cases hl : (fs.filterMap (fun f => f.wrote)).getLast? with
      | some r => simp
      | none => simp [applyFile, hfw]

/-- Helper: names other than the run table are never touched by the
batch loop. -/
theorem processFiles_foldl_other {α : Type} (runId n : String)
    (hn : n ≠ runTableName runId) (files : List (FileOutcome α)) :
    ∀ db : String → Option α, List.foldl (applyFile runId) db files n = db n := by
  induction files with
  | nil => intro db; simp
  | cons f fs ih =>
    intro db
    rw [List.foldl_cons, ih]
    cases hfw : f.wrote <;> simp [applyFile, hfw, hn]

/-- Helper: an element produced by getLast? belongs to the list. -/
theorem getLast?_some_mem {β : Type} :
    ∀ (l : List β) (a : β), l.getLast? = some a → a ∈ l := by
  intro l
  induction l with
  | nil => intro a h; simp at h
  | cons b bs ih =>
    intro a h
    rw [getLast?_cons_eq] at h
    cases hbs : bs.getLast? with
    | some t =>
      rw [hbs] at h
      have ht : t = a := by simpa using h
      subst ht
      exact List.mem_cons_of_mem b (ih t hbs)
    | none =>
      rw [hbs] at h
      simp at h
      simp [h]

/-- Helper: find? on a cons as an if on the head. -/
theorem find?_cons_eq {β : Type} (p : β → Bool) (a : β) (l : List β) :
    List.find? p (a :: l) = if p a then some a else List.find? p l := by
  by_cases h : p a
  · simp [List.find?_cons_of_pos _ h, h]
  · simp [List.find?_cons_of_neg _ h, h]

/-- Helper: when every file that wrote also reported success and the
other way round, the last successful write is the last write. -/
theorem lastSuccessWrote_eq_lastWrite {α : Type} (files : List (FileOutcome α))
    (h : ∀ f ∈ files, f.success = f.wrote.isSome) :
    lastSuccessWrote files = (files.filterMap (fun f => f.wrote)).getLast? := by
  induction files with
  | nil => simp [lastSuccessWrote]
  | cons f fs ih =>
    have hf := h f (List.mem_cons_self f fs)
    have hrest : ∀ g ∈ fs, g.success = g.wrote.isSome :=
      fun g hg => h g (List.mem_cons_of_mem f hg)
    have ihr := ih hrest
    cases hfw : f.wrote with
    | none =>
      have hsucc : f.success = false := by rw [hf, hfw]; rfl
      rw [lastSuccessWrote, List.filter_cons_of_neg (by simp [hsucc]),
        List.filterMap_cons_none hfw, ← ihr, lastSuccessWrote]
    | some w =>
      have hsucc : f.success = true := by rw [hf, hfw]; rfl
      cases hgl : (fs.filter (fun g => g.success)).getLast? with
      | some g =>
        have hlsf : lastSuccessWrote fs = g.wrote := by rw [lastSuccessWrote, hgl]
        have hgmem : g ∈ fs.filter (fun g => g.success) := getLast?_some_mem _ g hgl
        have hgfs : g ∈ fs := (List.mem_filter.mp hgmem).1
        have hgsucc : g.success = true := (List.mem_filter.mp hgmem).2
        have hgsome : g.wrote.isSome = true := by rw [← hrest g hgfs]; exact hgsucc
        obtain ⟨r, hr⟩ := Option.isSome_iff_exists.mp hgsome
        have hfm : (fs.filterMap (fun f => f.wrote)).getLast? = some r := by
          rw [← ihr, hlsf, hr]
        rw [lastSuccessWrote, List.filter_cons_of_pos (by simp [hsucc]),
          getLast?_cons_eq, hgl, List.filterMap_cons_some hfw, getLast?_cons_eq, hfm]
        exact hr
      | none =>
        have hfilnil : fs.filter (fun g => g.success) = [] := (getLast?_none_iff _).mp hgl
        have hlsf : lastSuccessWrote fs = none := by rw [lastSuccessWrote, hgl]
        have hfmnil : (fs.filterMap (fun f => f.wrote)).getLast? = none := by
          rw [← ihr, hlsf]
        have hnil : fs.filterMap (fun f => f.wrote) = [] := (getLast?_none_iff _).mp hfmnil
        rw [lastSuccessWrote, List.filter_cons_of_pos (by simp [hsucc]), hfilnil,
          List.filterMap_cons_some hfw, hnil]
        exact hfw

/-- C3 counterexample: a batch processing three files under one run
identifier where the first two succeed and the third writes its rows
and then fails at the archive move.  The run table ends up holding the
third file's rows, not those of the last successfully processed file. -/
theorem run_table_counterexample :
    processFilesDB "r"
        [⟨some 1, true⟩, ⟨some 2, true⟩, ⟨some (3 : Nat), false⟩]
        (fun _ => none) (runTableName "r") = some 3 ∧
      lastSuccessWrote [⟨some 1, true⟩, ⟨some 2, true⟩, ⟨some (3 : Nat), false⟩] = some 2 ∧
      (([⟨some 1, true⟩, ⟨some 2, true⟩, ⟨some (3 : Nat), false⟩] :
          List (FileOutcome Nat)).filter (fun f => f.success)).length = 2 ∧
      some (3 : Nat) ≠ some 2 := by
  refine ⟨by decide, by decide, by decide, by decide⟩

/-- C3 amended: all files of a batch write to the single table named
from the shared run identifier with replace semantics, no other table is
touched, and after the batch the table holds the rows of the last file
that reached the database write; that file is the last successfully
processed one whenever success and reaching the write coincide for every
file (a file can write and then fail at the archive step). -/
theorem run_table_amended {α : Type} (runId : String) (files : List (FileOutcome α))
    (db : String → Option α) (hw : files.filterMap (fun f => f.wrote) ≠ []) :
    processFilesDB runId files db (runTableName runId) =
        (files.filterMap (fun f => f.wrote)).getLast? ∧
      (∀ n, n ≠ runTableName runId → processFilesDB runId files db n = db n) ∧
      ((∀ f ∈ files, f.success = f.wrote.isSome) →
        processFilesDB runId files db (runTableName runId) = lastSuccessWrote files) := by
  have htab := processFiles_foldl_table runId files db
  obtain ⟨r, hr⟩ : ∃ r, (files.filterMap (fun f => f.wrote)).getLast? = some r := by
    cases hl : (files.filterMap (fun f => f.wrote)).getLast? with
    | some r => exact ⟨r, rfl⟩
    | none => exact absurd ((getLast?_none_iff _).mp hl) hw
  refine ⟨?_, ?_, ?_⟩
  · rw [processFilesDB, htab, hr]
  · intro n hn
    exact processFiles_foldl_other runId n hn files db
  · intro hcoinc
    rw [processFilesDB, htab, hr, lastSuccessWrote_eq_lastWrite files hcoinc, hr]

/-- Witness for the C3 amended theorem on a concrete two-file batch. -/
theorem run_table_amended_witness :
    processFilesDB "20250101" [⟨some 1, true⟩, ⟨some (2 : Nat), true⟩]
        (fun _ => none) (runTableName "20250101") =
        (([⟨some 1, true⟩, ⟨some (2 : Nat), true⟩] :
          List (FileOutcome Nat)).filterMap (fun f => f.wrote)).getLast? ∧
      (∀ n, n ≠ runTableName "20250101" →
        processFilesDB "20250101" [⟨some 1, true⟩, ⟨some (2 : Nat), true⟩]
          (fun _ => none) n = (fun _ => (none : Option Nat)) n) ∧
      ((∀ f ∈ ([⟨some 1, true⟩, ⟨some (2 : Nat), true⟩] : List (FileOutcome Nat)),
          f.success = f.wrote.isSome) →
        processFilesDB "20250101" [⟨some 1, true⟩, ⟨some (2 : Nat), true⟩]
          (fun _ => none) (runTableName "20250101") =
          lastSuccessWrote [⟨some 1, true⟩, ⟨some (2 : Nat), true⟩]) :=
  run_table_amended "20250101" [⟨some 1, true⟩, ⟨some (2 : Nat), true⟩]
    (fun _ => none) (by decide)

/-- Helper: the sheet scan fold keeps, for each role, the last sheet
assigned to it, falling back to the accumulator. -/
theorem etlClassify_foldl (names : List String) :
    ∀ (acc : String → Option String) (role : String),
      names.foldl etlClassifyStep acc role =
        match lastMatch (fun s => decide (assignRole s = some role)) names with
        | some t => some t
        | none => acc role := by
  induction names with
  | nil => intro acc role; simp [lastMatch]
  | cons s rest ih =>
    intro acc role
    rw [List.foldl_cons, ih]
    cases hl : lastMatch (fun s => decide (assignRole s = some role)) rest with
    | some t => simp [lastMatch, hl]
    | none =>
      simp only [lastMatch, hl]
      by_cases hp : assignRole s = some role
      · simp [etlClassifyStep, hp]
      · have hd : decide (assignRole s = some role) = false := by simp [hp]
        simp only [hd, Bool.false_eq_true, if_false, etlClassifyStep]
        cases ha : assignRole s with
        | none => simp
        | some k =>
          have hk : ¬ role = k := fun h => hp (by rw [ha, h])
          simp [hk]

/-- C4 counterexample: a workbook with two sheets both matching the
Charges role keyword.  find_sheet of final_2.py picks the first, but the
sheet scan of ETL.py process_single_file stores the second (each later
match overwrites the processed dict entry for the role). -/
theorem sheet_selection_counterexample :
    find_sheet ["Charges A", "Charges B"] "charges" = some "Charges A" ∧
      etlClassify ["Charges A", "Charges B"] "Charges" = some "Charges B" ∧
      ("Charges B" : String) ≠ "Charges A" := by
  refine ⟨by decide, by decide, by decide⟩

/-- C4 amended: find_sheet of final_2.py selects the first sheet name
containing the keyword case-insensitively, while the sheet scan of
ETL.py process_single_file keeps the last sheet assigned to each role
(a later matching sheet overwrites the earlier one). -/
theorem sheet_selection_amended (names : List String) (kw role : String) :
    find_sheet names kw =
        names.find? (fun s => strContains (strLower s) (strLower kw)) ∧
      etlClassify names role =
        lastMatch (fun s => decide (assignRole s = some role)) names := by
  constructor
  · induction names with
    | nil => simp [find_sheet]
    | cons s rest ih =>
      rw [find_sheet, find?_cons_eq, ih]
  · rw [etlClassify, etlClassify_foldl]
    cases lastMatch (fun s => decide (assignRole s = some role)) names <;> simp

/-- Helper: the extractOne loop returns its starting best or a pair
built from one of the choices. -/
theorem extractOneAux_mem (scorer : String → String → ℚ) (query : String) :
    ∀ (l : List String) (best : String × ℚ),
      extractOneAux scorer query best l = best ∨
        ∃ c ∈ l, extractOneAux scorer query best l = (c, scorer query c) := by
  intro l
  induction l with
  | nil => intro best; left; rfl
  | cons c rest ih =>
    intro best
    simp only [extractOneAux]
    rcases ih (if best.2 < scorer query c then (c, scorer query c) else best) with
      h | ⟨d, hd, h⟩
    · by_cases hlt : best.2 < scorer query c
      · right
        exact ⟨c, by simp, by rw [h, if_pos hlt]⟩
      · left
        rw [h, if_neg hlt]
    · right
      exact ⟨d, List.mem_cons_of_mem c hd, h⟩

/-- Helper: the extractOne loop result dominates the starting best and
the score of every choice. -/
theorem extractOneAux_le (scorer : String → String → ℚ) (query : String) :
    ∀ (l : List String) (best : String × ℚ),
      best.2 ≤ (extractOneAux scorer query best l).2 ∧
        ∀ c ∈ l, scorer query c ≤ (extractOneAux scorer query best l).2 := by
  intro l
  induction l with
  | nil =>
    intro best
    exact ⟨le_refl _, by simp⟩
  | cons c rest ih =>
    intro best
    simp only [extractOneAux]
    obtain ⟨h1, h2⟩ := ih (if best.2 < scorer query c then (c, scorer query c) else best)
    refine ⟨?_, ?_⟩
    · refine le_trans ?_ h1
      by_cases hlt : best.2 < scorer query c
      · rw [if_pos hlt]
        exact le_of_lt hlt
      · rw [if_neg hlt]
    · intro d hd
      rcases List.mem_cons.mp hd with rfl | hdr
      · refine le_trans ?_ h1
        by_cases hlt : best.2 < scorer query d
        · rw [if_pos hlt]
        · rw [if_neg hlt]
          exact le_of_not_lt hlt
      · exact h2 d hdr

/-- Helper: the choice returned by extractOne is one of the choices. -/
theorem extractOne_mem (scorer : String → String → ℚ) (query : String)
    (l : List String) (m : String) (score : ℚ)
    (h : extractOne scorer query l = some (m, score)) : m ∈ l := by
  cases l with
  | nil => simp [extractOne] at h
  | cons c rest =>
    simp only [extractOne, Option.some.injEq] at h
    rcases extractOneAux_mem scorer query rest (c, scorer query c) with h2 | ⟨d, hd, h2⟩
    · have hcm : (c, scorer query c) = (m, score) := h2.symm.trans h
      have : c = m := congrArg Prod.fst hcm
      rw [← this]
      exact List.mem_cons_self c rest
    · have hdm : (d, scorer query d) = (m, score) := h2.symm.trans h
      have : d = m := congrArg Prod.fst hdm
      rw [← this]
      exact List.mem_cons_of_mem c hd

/-- Helper: the score returned by extractOne dominates the score of
every choice. -/
theorem extractOne_score_ge (scorer : String → String → ℚ) (query : String)
    (l : List String) (m : String) (score : ℚ)
    (h : extractOne scorer query l = some (m, score)) :
    ∀ c ∈ l, scorer query c ≤ score := by
  cases l with
  | nil => simp [extractOne] at h
  | cons c rest =>
    simp only [extractOne, Option.some.injEq] at h
    obtain ⟨h1, h2⟩ := extractOneAux_le scorer query rest (c, scorer query c)
    intro d hd
    have hsc : (extractOneAux scorer query (c, scorer query c) rest).2 = score := by
      rw [h]
    rcases List.mem_cons.mp hd with rfl | hdr
    · rw [← hsc]
      exact h1
    · rw [← hsc]
      exact h2 d hdr

/-- Helper: a name occurring among the keys of an association list has a
lookup value. -/
theorem lookup_of_mem_keys {mapping : List (String × String)} {m : String}
    (hm : m ∈ mapping.map Prod.fst) :
    ∃ canon, List.lookup m mapping = some canon := by
  induction mapping with
  | nil => simp at hm
  | cons p rest ih =>
    rw [List.map_cons] at hm
    by_cases hh : m = p.1
    · exact ⟨p.2, by simp [List.lookup, hh]⟩
    · have hmr : m ∈ rest.map Prod.fst := by
        rcases List.mem_cons.mp hm with h | h
        · exact absurd h hh
        · exact h
      obtain ⟨canon, hcanon⟩ := ih hmr
      have hb : (m == p.1) = false := by simp [hh]
      exact ⟨canon, by simp [List.lookup, hb, hcanon]⟩

/-- Helper: a name not among the keys of an association list has no
lookup value. -/
theorem lookup_eq_none_of_not_mem {mapping : List (String × String)} {m : String}
    (hm : m ∉ mapping.map Prod.fst) : List.lookup m mapping = none := by
  induction mapping with
  | nil => simp [List.lookup]
  | cons p rest ih =>
    rw [List.map_cons] at hm
    have hh : m ≠ p.1 := fun h => hm (by rw [h]; exact List.mem_cons_self _ _)
    have hmr : m ∉ rest.map Prod.fst := fun h => hm (List.mem_cons_of_mem _ h)
    have hb : (m == p.1) = false := by simp [hh]
    simp [List.lookup, hb, ih hmr]

/-- C5: a header whose best token-sort score against the mapping keys
reaches the cutoff 85 is renamed to the canonical name of the best
matching key, and a header whose best score is strictly below 85 keeps
its original name.  The scorer is a parameter (rapidfuzz library code);
only its reflexivity at 100 and the absence of empty mapping keys are
assumed, both true of token_sort_ratio and of the mappings of ETL.py. -/
theorem fuzzy_cutoff_renames (scorer : String → String → ℚ)
    (mapping : List (String × String)) (colName m : String) (score : ℚ)
    (hkeys : ∀ k ∈ mapping.map Prod.fst, k ≠ "")
    (hrefl : scorer colName colName = 100)
    (hbest : extractOne scorer colName (mapping.map Prod.fst) = some (m, score)) :
    (85 ≤ score → ∃ canon, List.lookup m mapping = some canon ∧
        normalizeHeaderName scorer mapping colName = canon) ∧
      (score < 85 → normalizeHeaderName scorer mapping colName = colName) := by
  constructor
  · intro hcut
    have hm : m ∈ mapping.map Prod.fst := extractOne_mem _ _ _ _ _ hbest
    have hmne : m ≠ "" := hkeys m hm
    obtain ⟨canon, hcanon⟩ := lookup_of_mem_keys hm
    refine ⟨canon, hcanon, ?_⟩
    simp only [normalizeHeaderName, fuzzy_match_header, hbest, if_pos hcut,
      if_neg hmne, hcanon]
  · intro hcut
    have hnotmem : colName ∉ mapping.map Prod.fst := by
      intro hmem
      have hle := extractOne_score_ge _ _ _ _ _ hbest colName hmem
      rw [hrefl] at hle
      linarith
    have hlook : List.lookup colName mapping = none := lookup_eq_none_of_not_mem hnotmem
    have hnc : ¬ (85 : ℚ) ≤ score := not_le.mpr hcut
    simp only [normalizeHeaderName, fuzzy_match_header, hbest, if_neg hnc, hlook]

/-- Witness for the C5 theorem with a one-key mapping and a scorer that
gives score 100 to equal strings: the header equal to the key scores 100
and is renamed to the canonical name. -/
theorem fuzzy_cutoff_renames_witness :
    ((85 : ℚ) ≤ 100 →
      ∃ canon, List.lookup "Account Num" [("Account Num", "Claim No")] = some canon ∧
        normalizeHeaderName (fun a b => if a = b then (100 : ℚ) else 0)
          [("Account Num", "Claim No")] "Account Num" = canon) ∧
      ((100 : ℚ) < 85 →
        normalizeHeaderName (fun a b => if a = b then (100 : ℚ) else 0)
          [("Account Num", "Claim No")] "Account Num" = "Account Num") :=
  fuzzy_cutoff_renames (fun a b => if a = b then (100 : ℚ) else 0)
    [("Account Num", "Claim No")] "Account Num" "Account Num" 100
    (by decide) (by decide) (by decide)

/-- C6: a column name exactly equal to a mapping key is returned by the
exact-match short-circuit of fuzzy_match_header in mapping.py for every
scorer and every cutoff value, and normalize_sheet_headers renames it to
the canonical name of that key. -/
theorem exact_key_match (scorer : String → String → ℚ)
    (mapping : List (String × String)) (scoreCutoff : ℚ) (colName : String)
    (hmem : colName ∈ mapping.map Prod.fst) (hne : colName ≠ "") :
    fuzzyMatchHeaderExact scorer colName (mapping.map Prod.fst) scoreCutoff =
        some colName ∧
      ∃ canon, List.lookup colName mapping = some canon ∧
        normalizeSheetHeaderName scorer mapping scoreCutoff colName = canon := by
  have hfz : fuzzyMatchHeaderExact scorer colName (mapping.map Prod.fst) scoreCutoff =
      some colName := by
    simp [fuzzyMatchHeaderExact, hmem]
  obtain ⟨canon, hcanon⟩ := lookup_of_mem_keys hmem
  exact ⟨hfz, canon, hcanon, by simp [normalizeSheetHeaderName, hfz, hne, hcanon]⟩

/-- Witness for the C6 theorem: with an arbitrary constant scorer and a
cutoff of 9999 that no fuzzy score could reach, the exact key is still
matched and renamed to its canonical name. -/
theorem exact_key_match_witness :
    fuzzyMatchHeaderExact (fun _ _ => (0 : ℚ)) "Account Num"
        ([("Account Num", "Claim No")].map Prod.fst) 9999 = some "Account Num" ∧
      ∃ canon, List.lookup "Account Num" [("Account Num", "Claim No")] = some canon ∧
        normalizeSheetHeaderName (fun _ _ => (0 : ℚ)) [("Account Num", "Claim No")]
          9999 "Account Num" = canon :=
  exact_key_match (fun _ _ => (0 : ℚ)) [("Account Num", "Claim No")] 9999
    "Account Num" (by decide) (by decide)

/-- Helper: every left row contributes at least one merge output row. -/
theorem mergeRowFor_length_pos (r : DF) (k : String) (lcols : List String)
    (lr : List Cell) : 1 ≤ (mergeRowFor r k lcols lr).length := by
  cases hms : matchedRows r k (rowGet lcols lr k) with
  | nil => simp [mergeRowFor, hms]
  | cons a as => simp [mergeRowFor, hms]

/-- Helper: the merge never shrinks the left table. -/
theorem mergeRows_length_ge (r : DF) (k : String) (lcols : List String) :
    ∀ lrows : List (List Cell), lrows.length ≤ (mergeRows r k lcols lrows).length := by
  intro lrows
  induction lrows with
  | nil => simp [mergeRows]
  | cons lr rest ih =>
    have h1 := mergeRowFor_length_pos r k lcols lr
    simp only [mergeRows, List.length_append, List.length_cons]
    omega

/-- Helper: if the images of a list are pairwise distinct, at most one
element maps to any given value. -/
theorem filter_map_eq_length_le_one {γ δ : Type} [DecidableEq δ] (f : γ → δ)
    (l : List γ) (h : (l.map f).Nodup) (v : δ) :
    (l.filter (fun x => decide (f x = v))).length ≤ 1 := by
  induction l with
  | nil => simp
  | cons a as ih =>
    rw [List.map_cons, List.nodup_cons] at h
    obtain ⟨hna, hnd⟩ := h
    by_cases hfa : f a = v
    · have hemp : as.filter (fun x => decide (f x = v)) = [] := by
        rw [List.filter_eq_nil_iff]
        intro x hx
        simp only [decide_eq_true_eq]
        intro hfx
        apply hna
        rw [hfa, ← hfx]
        exact List.mem_map_of_mem f hx
      rw [List.filter_cons_of_pos (by simp [hfa]), hemp]
      simp
    · rw [List.filter_cons_of_neg (by simp [hfa])]
      exact ih hnd

/-- Helper: with pairwise distinct right key values every left row
contributes exactly one output row. -/
theorem mergeRowFor_length_eq_one (r : DF) (k : String) (lcols : List String)
    (lr : List Cell) (h : (keyColumn r k).Nodup) :
    (mergeRowFor r k lcols lr).length = 1 := by
  have hle : (matchedRows r k (rowGet lcols lr k)).length ≤ 1 :=
    filter_map_eq_length_le_one (fun rr => rowGet r.cols rr k) r.rows h _
  cases hms : matchedRows r k (rowGet lcols lr k) with
  | nil => simp [mergeRowFor, hms]
  | cons a as =>
    have hnil : as = [] := by
      rw [hms] at hle
      simp at hle
      exact hle
    subst hnil
    simp [mergeRowFor, hms]

/-- Helper: with pairwise distinct right key values the merge preserves
the left row count exactly. -/
theorem mergeRows_length_eq (r : DF) (k : String) (lcols : List String)
    (h : (keyColumn r k).Nodup) :
    ∀ lrows : List (List Cell), (mergeRows r k lcols lrows).length = lrows.length := by
  intro lrows
  induction lrows with
  | nil => simp [mergeRows]
  | cons lr rest ih =>
    simp only [mergeRows, List.length_append, List.length_cons, ih,
      mergeRowFor_length_eq_one r k lcols lr h]
    omega

/-- Helper: restricting a row to kept columns preserves the value of
every kept column, for rows aligned with the column list. -/
theorem dropRow_rowGet (keep : String → Bool) (c : String) (hk : keep c = true) :
    ∀ (cols : List String) (row : List Cell), row.length = cols.length →
      rowGet (cols.filter keep) (dropRow keep cols row) c = rowGet cols row c := by
  intro cols
  induction cols with
  | nil =>
    intro row hlen
    have hrow : row = [] := List.eq_nil_of_length_eq_zero hlen
    subst hrow
    rfl
  | cons d cs ih =>
    intro row hlen
    cases row with
    | nil => simp at hlen
    | cons e rs =>
      have hlen2 : rs.length = cs.length := by simpa using hlen
      by_cases hd : keep d
      · rw [List.filter_cons_of_pos (by simp [hd])]
        simp only [dropRow, if_pos hd, List.headD_cons, List.tail_cons]
        by_cases hdc : d = c
        · subst hdc
          simp [rowGet, colIdx]
        · simp only [rowGet, colIdx, if_neg hdc, List.getElem?_cons_succ]
          exact ih rs hlen2
      · rw [List.filter_cons_of_neg (by simp [hd])]
        simp only [dropRow, if_neg hd, List.tail_cons]
        have hdc : d ≠ c := fun h => hd (h ▸ hk)
        rw [ih rs hlen2]
        simp only [rowGet, colIdx, if_neg hdc, List.getElem?_cons_succ]

/-- Helper: the join key column survives the collision drop untouched. -/
theorem keyColumn_dropCols (l r : DF) (k : String) (hWF : r.WF) :
    keyColumn (dropCols l r k) k = keyColumn r k := by
  simp only [keyColumn, dropCols, List.map_map]
  apply List.map_congr_left
  intro row hrow
  have hk : keepCol l k k = true := by simp [keepCol]
  exact dropRow_rowGet (keepCol l k) k hk r.cols row (hWF row hrow)

/-- Helper: safe_merge never shrinks the left table. -/
theorem safe_merge_length_ge (l r : DF) (k : String) :
    l.rows.length ≤ (safe_merge l r k).rows.length :=
  mergeRows_length_ge (dropCols l r k) k l.cols l.rows

/-- Helper: safe_merge preserves the left row count exactly when the
right table is well formed with pairwise distinct key values. -/
theorem safe_merge_length_eq (l r : DF) (k : String) (hWF : r.WF)
    (h : (keyColumn r k).Nodup) :
    (safe_merge l r k).rows.length = l.rows.length := by
  apply mergeRows_length_eq
  rw [keyColumn_dropCols l r k hWF]
  exact h

/-- C1 counterexample: one charge row joined against a payment table
carrying two rows with the same claim identifier (and empty adjustment
and pending-AR tables) produces two merged rows, not one. -/
theorem merge_row_count_counterexample :
    ((⟨["Claim No", "x"], [[Cell.num 1, Cell.str "a"]]⟩ : DF).rows.length = 1) ∧
      (safe_merge (safe_merge (safe_merge
          (⟨["Claim No", "x"], [[Cell.num 1, Cell.str "a"]]⟩ : DF)
          (⟨["Claim No", "y"],
            [[Cell.num 1, Cell.str "p"], [Cell.num 1, Cell.str "q"]]⟩ : DF) "Claim No")
          (⟨["Claim No"], []⟩ : DF) "Claim No")
          (⟨["Claim No"], []⟩ : DF) "Claim No").rows.length = 2 ∧
      (2 : Nat) ≠ 1 := by
  refine ⟨by decide, by decide, by decide⟩

/-- C1 amended: the three successive left joins of process_single_file
never shrink the Charges table, and they keep exactly its row count
whenever each of the payment, adjustment and pending-AR tables is well
formed and carries pairwise distinct claim identifiers; duplicate
identifiers in a joined table can inflate the count. -/
theorem merge_row_count_amended (charges payment adj ar : DF) (k : String) :
    charges.rows.length ≤
        (safe_merge (safe_merge (safe_merge charges payment k) adj k) ar k).rows.length ∧
      (payment.WF → adj.WF → ar.WF →
        (keyColumn payment k).Nodup → (keyColumn adj k).Nodup →
        (keyColumn ar k).Nodup →
        (safe_merge (safe_merge (safe_merge charges payment k) adj k) ar k).rows.length =
          charges.rows.length) := by
  constructor
  · calc charges.rows.length ≤ (safe_merge charges payment k).rows.length :=
          safe_merge_length_ge charges payment k
      _ ≤ (safe_merge (safe_merge charges payment k) adj k).rows.length :=
          safe_merge_length_ge _ adj k
      _ ≤ (safe_merge (safe_merge (safe_merge charges payment k) adj k) ar k).rows.length :=
          safe_merge_length_ge _ ar k
  · intro hP hA hR nP nA nR
    rw [safe_merge_length_eq _ ar k hR nR, safe_merge_length_eq _ adj k hA nA,
      safe_merge_length_eq charges payment k hP nP]

/-- Witness for the C1 amended theorem on concrete tables with pairwise
distinct claim identifiers. -/
theorem merge_row_count_amended_witness :
    (safe_merge (safe_merge (safe_merge
        (⟨["Claim No", "x"], [[Cell.num 1, Cell.str "a"]]⟩ : DF)
        (⟨["Claim No", "y"], [[Cell.num 1, Cell.str "p"]]⟩ : DF) "Claim No")
        (⟨["Claim No"], []⟩ : DF) "Claim No")
        (⟨["Claim No"], []⟩ : DF) "Claim No").rows.length =
      (⟨["Claim No", "x"], [[Cell.num 1, Cell.str "a"]]⟩ : DF).rows.length :=
  (merge_row_count_amended
      (⟨["Claim No", "x"], [[Cell.num 1, Cell.str "a"]]⟩ : DF)
      (⟨["Claim No", "y"], [[Cell.num 1, Cell.str "p"]]⟩ : DF)
      (⟨["Claim No"], []⟩ : DF) (⟨["Claim No"], []⟩ : DF) "Claim No").2
    (by decide) (by decide) (by decide) (by decide) (by decide) (by decide)

/-- Helper: the index of the first occurrence of a present name is below
the list length. -/
theorem colIdx_lt_length {c : String} :
    ∀ {cols : List String}, c ∈ cols → colIdx c cols < cols.length := by
  intro cols
  induction cols with
  | nil => intro h; simp at h
  | cons d rest ih =>
    intro h
    by_cases hd : d = c
    · simp [colIdx, hd]
    · have hr : c ∈ rest := by
        rcases List.mem_cons.mp h with h1 | h1
        · exact absurd h1.symm hd
        · exact h1
      simp only [colIdx, if_neg hd, List.length_cons]
      exact Nat.succ_lt_succ (ih hr)

/-- Helper: the first occurrence of a name present on the left of an
append is found on the left. -/
theorem colIdx_append_left {c : String} :
    ∀ {xs : List String} (ys : List String), c ∈ xs →
      colIdx c (xs ++ ys) = colIdx c xs := by
  intro xs
  induction xs with
  | nil => intro ys h; simp at h
  | cons d rest ih =>
    intro ys h
    by_cases hd : d = c
    · simp [colIdx, hd]
    · have hr : c ∈ rest := by
        rcases List.mem_cons.mp h with h1 | h1
        · exact absurd h1.symm hd
        · exact h1
      simp only [List.cons_append, colIdx, if_neg hd]
      exact congrArg (fun n => n + 1) (ih ys hr)

/-- Helper: looking a left column up in a merged row reads the left
part. -/
theorem rowGet_append (cols1 cols2 : List String) (row1 row2 : List Cell)
    (c : String) (hc : c ∈ cols1) (hlen : row1.length = cols1.length) :
    rowGet (cols1 ++ cols2) (row1 ++ row2) c = rowGet cols1 row1 c := by
  simp only [rowGet]
  rw [colIdx_append_left cols2 hc]
  have hlt : colIdx c cols1 < row1.length := by
    rw [hlen]
    exact colIdx_lt_length hc
  exact List.getElem?_append_left hlt

/-- Helper: every merge output row extends one of the left rows. -/
theorem mergeRows_mem (r : DF) (k : String) (lcols : List String) :
    ∀ (lrows : List (List Cell)) (row : List Cell),
      row ∈ mergeRows r k lcols lrows →
      ∃ lr ∈ lrows, ∃ tail, row = lr ++ tail := by
  intro lrows
  induction lrows with
  | nil => intro row h; simp [mergeRows] at h
  | cons lr rest ih =>
    intro row h
    rcases List.mem_append.mp h with h1 | h1
    · cases hms : matchedRows r k (rowGet lcols lr k) with
      | nil =>
        rw [mergeRowFor, hms] at h1
        simp at h1
        exact ⟨lr, List.mem_cons_self lr rest,
          List.replicate (r.cols.eraseIdx (colIdx k r.cols)).length Cell.na, h1⟩
      | cons a as =>
        rw [mergeRowFor, hms] at h1
        simp at h1
        rcases h1 with h1 | ⟨b, hb, h1⟩
        · exact ⟨lr, List.mem_cons_self lr rest, a.eraseIdx (colIdx k r.cols), h1⟩
        · exact ⟨lr, List.mem_cons_self lr rest, b.eraseIdx (colIdx k r.cols), h1.symm⟩
    · obtain ⟨lr2, hlr2, tail, htail⟩ := ih row h1
      exact ⟨lr2, List.mem_cons_of_mem lr hlr2, tail, htail⟩

/-- C8: for every non-key column of the Charges table, every row of the
safe_merge output carries the Charges value of that column (the value of
the left row the output row extends), and the column does not occur a
second time among the appended right columns, so the Payment value is
dropped, not kept. -/
theorem merge_left_column_wins (l r : DF) (k c : String)
    (hWF : l.WF) (hc : c ∈ l.cols) (hck : c ≠ k) :
    (∀ row ∈ (safe_merge l r k).rows, ∃ lr ∈ l.rows,
        rowGet (safe_merge l r k).cols row c = rowGet l.cols lr c) ∧
      c ∉ (safe_merge l r k).cols.drop l.cols.length := by
  constructor
  · intro row hrow
    obtain ⟨lr, hlr, tail, htail⟩ := mergeRows_mem _ _ _ _ row hrow
    refine ⟨lr, hlr, ?_⟩
    have hcols : (safe_merge l r k).cols =
        l.cols ++ (dropCols l r k).cols.eraseIdx (colIdx k (dropCols l r k).cols) := rfl
    rw [hcols, htail]
    exact rowGet_append _ _ _ _ c hc (hWF lr hlr)
  · have hdrop : (safe_merge l r k).cols.drop l.cols.length =
        (dropCols l r k).cols.eraseIdx (colIdx k (dropCols l r k).cols) := by
      show (l.cols ++ _).drop l.cols.length = _
      rw [List.drop_left]
    rw [hdrop]
    intro hmem
    have h1 : c ∈ (dropCols l r k).cols := List.mem_of_mem_eraseIdx hmem
    have h2 : keepCol l k c = true := (List.mem_filter.mp h1).2
    simp [keepCol, hc, hck] at h2

/-- Witness for the C8 theorem: Charges and Payment both carry an
insurance column with different values; the theorem applies to the
concrete merged table. -/
theorem merge_left_column_wins_witness :
    (∀ row ∈ (safe_merge
        (⟨["Claim No", "insurance"], [[Cell.num 1, Cell.str "AETNA"]]⟩ : DF)
        (⟨["Claim No", "insurance"], [[Cell.num 1, Cell.str "CIGNA"]]⟩ : DF)
        "Claim No").rows,
      ∃ lr ∈ (⟨["Claim No", "insurance"],
          [[Cell.num 1, Cell.str "AETNA"]]⟩ : DF).rows,
        rowGet (safe_merge
            (⟨["Claim No", "insurance"], [[Cell.num 1, Cell.str "AETNA"]]⟩ : DF)
            (⟨["Claim No", "insurance"], [[Cell.num 1, Cell.str "CIGNA"]]⟩ : DF)
            "Claim No").cols row "insurance" =
          rowGet ["Claim No", "insurance"] lr "insurance") ∧
      "insurance" ∉ (safe_merge
          (⟨["Claim No", "insurance"], [[Cell.num 1, Cell.str "AETNA"]]⟩ : DF)
          (⟨["Claim No", "insurance"], [[Cell.num 1, Cell.str "CIGNA"]]⟩ : DF)
          "Claim No").cols.drop (["Claim No", "insurance"] : List String).length :=
  merge_left_column_wins
    (⟨["Claim No", "insurance"], [[Cell.num 1, Cell.str "AETNA"]]⟩ : DF)
    (⟨["Claim No", "insurance"], [[Cell.num 1, Cell.str "CIGNA"]]⟩ : DF)
    "Claim No" "insurance" (by decide) (by decide) (by decide)

end Eetl
